import Mathlib

/-!
# WS2812 bit-stream transmitter (`ws2812_write`, `src/user/user_main.c`)

A shallow embedding of the timing-critical routine `ws2812_write`.

* 32-bit unsigned values are natural numbers reduced modulo `2 ^ 32`.
* The cycle counter is a sequence `ccount : Nat → Nat`; the `n`-th call of
  `_getCycleCount()` returns `ccount n % 2 ^ 32`.
* The value returned by `system_get_cpu_freq()` (the clock in MHz) is a
  parameter `cpu_freq`.
* `pixels` is the memory readable through the pointer argument, as a list of
  bytes; reading an index that the list does not have is a fault.
* Every observable action (buffer read, interrupt lock, counter read with the
  loop condition it is used in, GPIO register write) is appended to a trace.
* The three `while` loops are unbounded in C; they take a fuel argument here.
-/

namespace WS2812

/-! ## Machine arithmetic -/

/-- Difference `a - b` of two `uint32_t` values. -/
def sub32 (a b : Nat) : Nat := (a % 2 ^ 32 + (2 ^ 32 - b % 2 ^ 32)) % 2 ^ 32

/-- The value `_getCycleCount()` returns on its `n`-th call (lines 68-73). -/
def getCycleCount (ccount : Nat → Nat) (n : Nat) : Nat := ccount n % 2 ^ 32

/-- Line 98: `pin_mask = 1 << pin`, stored in a `uint32_t`. The ESP8266 has the
pins 0 to 16; for `pin ≥ 32`, where C leaves the shift undefined, the model
keeps the low 32 bits, which are 0. -/
def pin_mask (pin : Nat) : Nat := (1 <<< pin) % 2 ^ 32

/-- Line 104: `t0h = (1000 * system_get_cpu_freq()) / 3333`, where `cpu_freq` is
the value the call returns and the product is a 32-bit value. -/
def t0h (cpu_freq : Nat) : Nat := (1000 * cpu_freq) % 2 ^ 32 / 3333

/-- Line 105: `t1h = (1000 * system_get_cpu_freq()) / 1666`. -/
def t1h (cpu_freq : Nat) : Nat := (1000 * cpu_freq) % 2 ^ 32 / 1666

/-- Line 106: `ttot = (1000 * system_get_cpu_freq()) / 800`. -/
def ttot (cpu_freq : Nat) : Nat := (1000 * cpu_freq) % 2 ^ 32 / 800

/-! ## Observable actions -/

/-- Which of the two busy-wait loops a counter read belongs to:
`period` is line 114, `high` is line 118. -/
inductive Wait where
  | period
  | high
  deriving DecidableEq, Repr

/-- One observable action of `ws2812_write`. -/
inductive Event where
  /-- The read `*p++` of `pixels[i]` (lines 101 and 126). -/
  | load (i : Nat)
  /-- The call `ets_intr_lock()` (line 108). -/
  | intrLock
  /-- One evaluation of `((c = _getCycleCount()) - start_time) < limit`:
  the counter value read, and the values it is compared with. -/
  | poll (w : Wait) (c start limit : Nat)
  /-- The write `GPIO_REG_WRITE(GPIO_OUT_W1TS_ADDRESS, m)` (line 115). -/
  | setHigh (m : Nat)
  /-- The write `GPIO_REG_WRITE(GPIO_OUT_W1TC_ADDRESS, m)` (line 119). -/
  | setLow (m : Nat)
  /-- The call `ets_intr_unlock()` (line 131). -/
  | intrUnlock
  deriving DecidableEq, Repr

/-- Why a run of the model did not return. -/
inductive Err where
  /-- A loop was still running when the fuel ran out. -/
  | outOfFuel
  /-- The byte `pixels[i]` was read although the memory behind `pixels` has no index `i`. -/
  | badRead (i : Nat)
  deriving DecidableEq, Repr

/-! ## The routine -/

/-- The busy-wait loop `while (((c = _getCycleCount()) - start_time) < limit);`
(lines 114 and 118), started when `n` counter reads have been made.
Returns the last value of `c`, the number of counter reads made so far, and
the reads in order. -/
def waitLoop (ccount : Nat → Nat) (w : Wait) (start limit : Nat) :
    Nat → Nat → Option (Nat × Nat × List Event)
  | 0, _ => none
  | fuel + 1, n =>
    let c := getCycleCount ccount n
    if sub32 c start < limit then
      match waitLoop ccount w start limit fuel (n + 1) with
      | none => none
      | some (c', n', evs) => some (c', n', Event.poll w c start limit :: evs)
    else
      some (c, n + 1, [Event.poll w c start limit])

/-- The loop `while (true) { ... }` of lines 110-129. `inner` is the fuel given
to each busy-wait loop, the first argument after it the fuel of this loop; the
other arguments are the local variables `p` (as an index into `pixels`),
`pixel`, `mask`, `start_time`, and the number of counter reads made so far. -/
def bitLoop (ccount : Nat → Nat) (pixels : List Nat) (length pmask t0 t1 tt inner : Nat) :
    Nat → Nat → Nat → Nat → Nat → Nat → Except Err (List Event)
  | 0, _, _, _, _, _ => .error .outOfFuel
  | fuel + 1, p, pixel, mask, start_time, n =>
    -- line 112
    let t := if pixel &&& mask ≠ 0 then t1 else t0
    -- line 114
    match waitLoop ccount .period start_time tt inner n with
    | none => .error .outOfFuel
    | some (c, n1, ev1) =>
      -- line 117
      let start_time := c
      -- line 118
      match waitLoop ccount .high start_time t inner n1 with
      | none => .error .outOfFuel
      | some (_, n2, ev2) =>
        let pulse := ev1 ++ Event.setHigh pmask :: (ev2 ++ [Event.setLow pmask])
        -- line 121
        let mask := (mask >>> 1) % 256
        if mask = 0 then
          -- line 123: `end = p + length` with `p = pixels`, so `end` is index `length`
          if p ≥ length then
            .ok pulse
          else
            -- line 126
            match pixels[p]? with
            | none => .error (.badRead p)
            | some b =>
              match bitLoop ccount pixels length pmask t0 t1 tt inner
                  fuel (p + 1) (b % 256) 0x80 start_time n2 with
              | .error e => .error e
              | .ok rest => .ok (pulse ++ Event.load p :: rest)
        else
          match bitLoop ccount pixels length pmask t0 t1 tt inner
              fuel p pixel mask start_time n2 with
          | .error e => .error e
          | .ok rest => .ok (pulse ++ rest)

/-- The routine `ws2812_write(pin, pixels, length)` (lines 93-132), run with the
counter reads `ccount`, the clock `cpu_freq` and the given fuel. -/
def ws2812_write (ccount : Nat → Nat) (cpu_freq fuel : Nat)
    (pin : Nat) (pixels : List Nat) (length : Nat) : Except Err (List Event) :=
  -- line 101: `pixel = *p++`
  match pixels[0]? with
  | none => .error (.badRead 0)
  | some b =>
    match bitLoop ccount pixels length (pin_mask pin)
        (t0h cpu_freq) (t1h cpu_freq) (ttot cpu_freq) fuel
        fuel 1 (b % 256) 0x80 0 0 with
    | .error e => .error e
    | .ok body => .ok (Event.load 0 :: Event.intrLock :: (body ++ [Event.intrUnlock]))

/-! ## Observers on traces -/

/-- The GPIO register writes of a trace, in order. -/
def gpioWrites (tr : List Event) : List Event :=
  tr.filter fun
    | .setHigh _ => true
    | .setLow _ => true
    | _ => false

/-- The buffer indices a trace reads, in order. -/
def loads (tr : List Event) : List Nat :=
  tr.filterMap fun
    | .load i => some i
    | _ => none

/-- An event that a later action waits for or is: a GPIO register write, or
a counter read that ended its busy-wait loop (its loop condition was false). -/
def decisive : Event → Bool
  | .poll _ c start limit => decide (limit ≤ sub32 c start)
  | .setHigh _ => true
  | .setLow _ => true
  | _ => false

/-- A trace without the buffer reads, the interrupt lock and unlock, and the
counter reads after which a loop went on waiting. -/
def skeleton (tr : List Event) : List Event := tr.filter decisive

/-- The values of one pass through the bit loop: the high time `t` chosen at
line 112, the `start_time` recorded at line 117, and the counter value `c` with
which the wait of line 118 ended. -/
structure Pulse where
  target : Nat
  start : Nat
  stop : Nat
  deriving DecidableEq, Repr

/-- The skeleton that a sequence of passes through the bit loop leaves, when
`start_time` is `prev` before the first of them: for each pass the read that
ended the period wait, the set-high write, the read that ended the high-time
wait, and the set-low write. -/
def pulseTrain (m tt : Nat) : Nat → List Pulse → List Event
  | _, [] => []
  | prev, q :: qs =>
    Event.poll .period q.start prev tt :: Event.setHigh m ::
      Event.poll .high q.stop q.start q.target :: Event.setLow m ::
      pulseTrain m tt q.start qs

/-- Every pass starts at least `tt` ticks after the start of the pass before it
(`prev` for the first), and ends its high time at least `target` ticks after
its own start, the differences taken modulo `2 ^ 32`. -/
def Timed (tt : Nat) : Nat → List Pulse → Prop
  | _, [] => True
  | prev, q :: qs =>
    tt ≤ sub32 q.start prev ∧ q.target ≤ sub32 q.stop q.start ∧ Timed tt q.start qs

/-- Whether `Timed` holds can be computed. -/
def Timed.decide (tt : Nat) : (prev : Nat) → (qs : List Pulse) → Decidable (Timed tt prev qs)
  | _, [] => isTrue trivial
  | prev, q :: qs =>
    match Nat.decLe tt (sub32 q.start prev), Nat.decLe q.target (sub32 q.stop q.start),
        Timed.decide tt q.start qs with
    | isTrue h1, isTrue h2, isTrue h3 => isTrue ⟨h1, h2, h3⟩
    | isFalse h1, _, _ => isFalse fun h => h1 h.1
    | _, isFalse h2, _ => isFalse fun h => h2 h.2.1
    | _, _, isFalse h3 => isFalse fun h => h3 h.2.2

instance (tt prev : Nat) (qs : List Pulse) : Decidable (Timed tt prev qs) :=
  Timed.decide tt prev qs

/-- The bits `k, k-1, ..., 0` of the byte `b`, in this order. -/
def bitsFrom (b : Nat) : Nat → List Bool
  | 0 => [b.testBit 0]
  | k + 1 => b.testBit (k + 1) :: bitsFrom b k

/-- The bits of a buffer, byte after byte, each byte from bit 7 down to bit 0. -/
def msbBits (buf : List Nat) : List Bool :=
  buf.flatMap fun b => (List.range 8).map fun j => (b % 256).testBit (7 - j)

/-- The counter advances between consecutive reads by at least `1` and at most
`2 ^ 32 - lim` ticks (modulo `2 ^ 32`). -/
def Advances (ccount : Nat → Nat) (lim : Nat) : Prop :=
  ∀ n, 1 ≤ sub32 (getCycleCount ccount (n + 1)) (getCycleCount ccount n) ∧
    sub32 (getCycleCount ccount (n + 1)) (getCycleCount ccount n) ≤ 2 ^ 32 - lim

/-! ## Arithmetic lemmas -/

theorem sub32_lt (a b : Nat) : sub32 a b < 2 ^ 32 := by
  unfold sub32
  omega

theorem sub32_zero_right (a : Nat) (h : a < 2 ^ 32) : sub32 a 0 = a := by
  unfold sub32
  omega

theorem sub32_add_mod (s e : Nat) (he : e < 2 ^ 32) :
    sub32 ((s + e) % 2 ^ 32) s = e := by
  unfold sub32
  omega

theorem sub32_trans (a b s : Nat) : sub32 a s = (sub32 b s + sub32 a b) % 2 ^ 32 := by
  unfold sub32
  omega

theorem and_two_pow_ne_zero (b k : Nat) : (b &&& 2 ^ k ≠ 0) ↔ b.testBit k = true := by
  constructor
  · intro h
    by_contra hb
    apply h
    apply Nat.eq_of_testBit_eq
    intro i
    simp only [Nat.testBit_and, Nat.testBit_two_pow, Nat.zero_testBit]
    by_cases hik : k = i
    · subst hik
      simp [hb]
    · simp [hik]
  · intro hb h
    have := congrArg (fun x => x.testBit k) h
    simp [hb] at this

theorem advances_linear (a d lim : Nat) (h1 : 1 ≤ d) (h2 : d ≤ 2 ^ 32 - lim) (h3 : d < 2 ^ 32) :
    Advances (fun n => a + d * n) lim := by
  intro n
  have h : sub32 (getCycleCount (fun n => a + d * n) (n + 1))
      (getCycleCount (fun n => a + d * n) n) = d := by
    simp only [getCycleCount]
    have e : a + d * (n + 1) = (a + d * n) + d := by ring
    rw [e]
    generalize a + d * n = x
    unfold sub32
    omega
  rw [h]
  exact ⟨h1, h2⟩

/-! ## The busy-wait loop -/

theorem waitLoop_ok (ccount : Nat → Nat) (w : Wait) (start limit : Nat) :
    ∀ fuel n c n1 evs, waitLoop ccount w start limit fuel n = some (c, n1, evs) →
      limit ≤ sub32 c start ∧ skeleton evs = [Event.poll w c start limit] ∧
      gpioWrites evs = [] ∧ loads evs = [] ∧
      (limit ≤ sub32 (getCycleCount ccount n) start →
        evs = [Event.poll w (getCycleCount ccount n) start limit]) := by
  intro fuel
  induction fuel with
  | zero => intro n c n1 evs h; simp [waitLoop] at h
  | succ fuel ih =>
    intro n c n1 evs h
    simp only [waitLoop] at h
    split at h
    · rename_i hlt
      split at h
      · simp at h
      · rename_i c2 n2 evs2 hrec
        simp only [Option.some.injEq, Prod.mk.injEq] at h
        obtain ⟨rfl, rfl, rfl⟩ := h
        obtain ⟨h1, h2, h3, h4, _⟩ := ih _ _ _ _ hrec
        refine ⟨h1, ?_, ?_, ?_, ?_⟩
        · simp only [skeleton] at h2 ⊢
          rw [List.filter_cons_of_neg (by simp [decisive, hlt]), h2]
        · simp only [gpioWrites] at h3 ⊢
          rw [List.filter_cons_of_neg (by simp), h3]
        · simp only [loads] at h4 ⊢
          rw [List.filterMap_cons_none (by rfl), h4]
        · intro hge; omega
    · rename_i hge
      simp only [Option.some.injEq, Prod.mk.injEq] at h
      obtain ⟨rfl, rfl, rfl⟩ := h
      have hge' : limit ≤ sub32 (getCycleCount ccount n) start := by omega
      refine ⟨hge', ?_, ?_, ?_, ?_⟩
      · simp [skeleton, decisive, hge']
      · simp [gpioWrites]
      · simp [loads]
      · intro _; rfl

theorem waitLoop_mono (ccount : Nat → Nat) (w : Wait) (start limit : Nat) :
    ∀ fuel fuel2 n r, fuel ≤ fuel2 → waitLoop ccount w start limit fuel n = some r →
      waitLoop ccount w start limit fuel2 n = some r := by
  intro fuel
  induction fuel with
  | zero => intro fuel2 n r _ h; simp [waitLoop] at h
  | succ fuel ih =>
    intro fuel2 n r hle h
    obtain ⟨g, rfl⟩ : ∃ g, fuel2 = g + 1 := ⟨fuel2 - 1, by omega⟩
    simp only [waitLoop] at h ⊢
    split at h
    · rename_i hlt
      rw [if_pos hlt]
      split at h
      · simp at h
      · rename_i c2 n2 evs2 hrec
        rw [ih g (n + 1) _ (by omega) hrec]
        exact h
    · rename_i hge
      rw [if_neg hge]
      exact h

theorem waitLoop_terminates (ccount : Nat → Nat) (w : Wait) (start limit lim : Nat)
    (hadv : Advances ccount lim) (hl : limit ≤ lim) :
    ∀ fuel n, limit - sub32 (getCycleCount ccount n) start < fuel →
      ∃ r, waitLoop ccount w start limit fuel n = some r := by
  intro fuel
  induction fuel with
  | zero => intro n h; omega
  | succ fuel ih =>
    intro n h
    simp only [waitLoop]
    split
    · rename_i hlt
      have hstep := hadv n
      have htr := sub32_trans (getCycleCount ccount (n + 1)) (getCycleCount ccount n) start
      have hnow : sub32 (getCycleCount ccount n) start +
          sub32 (getCycleCount ccount (n + 1)) (getCycleCount ccount n) < 2 ^ 32 := by omega
      rw [Nat.mod_eq_of_lt hnow] at htr
      obtain ⟨r, hr⟩ := ih (n + 1) (by omega)
      rw [hr]
      obtain ⟨c, n1, evs⟩ := r
      exact ⟨_, rfl⟩
    · exact ⟨_, rfl⟩

/-! ## The bit loop -/

theorem range_eight_bits (b : Nat) :
    ((List.range 8).map fun j => b.testBit (7 - j)) = bitsFrom b 7 := by
  rfl

theorem msbBits_cons (b : Nat) (buf : List Nat) :
    msbBits (b :: buf) = bitsFrom (b % 256) 7 ++ msbBits buf := by
  simp only [msbBits, List.flatMap_cons, range_eight_bits]

theorem take_drop_of_getElem? (pixels : List Nat) (length p b : Nat) (hp : p < length)
    (hb : pixels[p]? = some b) :
    (pixels.take length).drop p = b :: (pixels.take length).drop (p + 1) := by
  obtain ⟨hlt, hget⟩ := List.getElem?_eq_some.mp hb
  have hlen : p < (pixels.take length).length := by
    rw [List.length_take]; omega
  rw [List.drop_eq_getElem_cons hlen, List.getElem_take, hget]

theorem take_drop_of_le (pixels : List Nat) (length p : Nat) (hp : length ≤ p) :
    (pixels.take length).drop p = [] := by
  apply List.drop_eq_nil_of_le
  rw [List.length_take]; omega

theorem shift_two_pow_succ (k : Nat) (hk : k + 1 ≤ 7) : (2 ^ (k + 1) >>> 1) % 256 = 2 ^ k := by
  rw [Nat.shiftRight_eq_div_pow, pow_succ]
  have h : 2 ^ k ≤ 2 ^ 6 := Nat.pow_le_pow_right (by decide) (by omega)
  simp only [pow_one, Nat.mul_div_cancel _ (show 0 < 2 by decide)]
  apply Nat.mod_eq_of_lt
  omega

theorem skeleton_pulse (ccount : Nat → Nat) (m tt t inner start n n1 c c2 n2 : Nat)
    (ev1 ev2 rest : List Event)
    (h1 : waitLoop ccount .period start tt inner n = some (c, n1, ev1))
    (h2 : waitLoop ccount .high c t inner n1 = some (c2, n2, ev2)) :
    skeleton (ev1 ++ Event.setHigh m :: (ev2 ++ [Event.setLow m]) ++ rest) =
      Event.poll .period c start tt :: Event.setHigh m :: Event.poll .high c2 c t ::
        Event.setLow m :: skeleton rest := by
  obtain ⟨_, ha, _, _, _⟩ := waitLoop_ok _ _ _ _ _ _ _ _ _ h1
  obtain ⟨_, hb, _, _, _⟩ := waitLoop_ok _ _ _ _ _ _ _ _ _ h2
  simp only [skeleton] at ha hb ⊢
  simp [List.filter_append, List.filter_cons, ha, hb, decisive]

theorem gpioWrites_pulse (ccount : Nat → Nat) (m tt t inner start n n1 c c2 n2 : Nat)
    (ev1 ev2 rest : List Event)
    (h1 : waitLoop ccount .period start tt inner n = some (c, n1, ev1))
    (h2 : waitLoop ccount .high c t inner n1 = some (c2, n2, ev2)) :
    gpioWrites (ev1 ++ Event.setHigh m :: (ev2 ++ [Event.setLow m]) ++ rest) =
      Event.setHigh m :: Event.setLow m :: gpioWrites rest := by
  obtain ⟨_, _, ha, _, _⟩ := waitLoop_ok _ _ _ _ _ _ _ _ _ h1
  obtain ⟨_, _, hb, _, _⟩ := waitLoop_ok _ _ _ _ _ _ _ _ _ h2
  simp only [gpioWrites] at ha hb ⊢
  simp [List.filter_append, List.filter_cons, ha, hb]

theorem loads_pulse (ccount : Nat → Nat) (m tt t inner start n n1 c c2 n2 : Nat)
    (ev1 ev2 rest : List Event)
    (h1 : waitLoop ccount .period start tt inner n = some (c, n1, ev1))
    (h2 : waitLoop ccount .high c t inner n1 = some (c2, n2, ev2)) :
    loads (ev1 ++ Event.setHigh m :: (ev2 ++ [Event.setLow m]) ++ rest) = loads rest := by
  obtain ⟨_, _, _, ha, _⟩ := waitLoop_ok _ _ _ _ _ _ _ _ _ h1
  obtain ⟨_, _, _, hb, _⟩ := waitLoop_ok _ _ _ _ _ _ _ _ _ h2
  simp only [loads] at ha hb ⊢
  simp [List.filterMap_append, List.filterMap_cons, ha, hb]

/-- What a returning run of the bit loop leaves in the trace, when it starts
with `mask = 2 ^ k`. -/
theorem bitLoop_ok (ccount : Nat → Nat) (pixels : List Nat) (length m t0 t1 tt inner : Nat) :
    ∀ fuel p pixel k start n tr, k ≤ 7 →
      bitLoop ccount pixels length m t0 t1 tt inner fuel p pixel (2 ^ k) start n = .ok tr →
      (∃ qs, skeleton tr = pulseTrain m tt start qs ∧ Timed tt start qs ∧
        qs.map Pulse.target =
          (bitsFrom pixel k ++ msbBits ((pixels.take length).drop p)).map
            (fun b => if b then t1 else t0)) ∧
      gpioWrites tr =
        (List.replicate (k + 1 + 8 * (length - p)) [Event.setHigh m, Event.setLow m]).flatten ∧
      loads tr = List.range' p (length - p) := by
  intro fuel
  induction fuel with
  | zero => intro p pixel k start n tr _ h; simp [bitLoop] at h
  | succ fuel ih =>
    intro p pixel k start n tr hk h
    simp only [bitLoop] at h
    split at h
    · simp at h
    · rename_i c n1 ev1 hw1
      split at h
      · simp at h
      · rename_i c2 n2 ev2 hw2
        have hge1 := (waitLoop_ok _ _ _ _ _ _ _ _ _ hw1).1
        have hge2 := (waitLoop_ok _ _ _ _ _ _ _ _ _ hw2).1
        have hsel : (if pixel &&& 2 ^ k ≠ 0 then t1 else t0) =
            (if pixel.testBit k = true then t1 else t0) := by
          by_cases hb : pixel.testBit k = true
          · rw [if_pos ((and_two_pow_ne_zero pixel k).mpr hb), if_pos hb]
          · rw [if_neg (fun hc => hb ((and_two_pow_ne_zero pixel k).mp hc)), if_neg hb]
        rw [hsel] at hw2 hge2
        cases k with
        | zero =>
          have hm : (2 ^ 0 >>> 1) % 256 = 0 := by decide
          rw [hm] at h
          simp only [↓reduceIte] at h
          split at h
          · rename_i hend
            simp only [Except.ok.injEq] at h
            subst h
            have hsk := skeleton_pulse ccount m tt _ inner start n n1 c c2 n2 ev1 ev2 [] hw1 hw2
            have hgp := gpioWrites_pulse ccount m tt _ inner start n n1 c c2 n2 ev1 ev2 [] hw1 hw2
            have hld := loads_pulse ccount m tt _ inner start n n1 c c2 n2 ev1 ev2 [] hw1 hw2
            rw [List.append_nil] at hsk hgp hld
            have hz : length - p = 0 := by omega
            refine ⟨⟨[⟨if pixel.testBit 0 = true then t1 else t0, c, c2⟩], ?_, ?_, ?_⟩, ?_, ?_⟩
            · rw [hsk]; rfl
            · exact ⟨hge1, hge2, trivial⟩
            · rw [take_drop_of_le pixels length p hend]
              simp [bitsFrom, msbBits, hsel]
            · rw [hgp, hz]; rfl
            · rw [hld, hz]; rfl
          · rename_i hend
            split at h
            · simp at h
            · rename_i b hb
              split at h
              · simp at h
              · rename_i rest hrest
                simp only [Except.ok.injEq] at h
                subst h
                obtain ⟨⟨qs, hq1, hq2, hq3⟩, hg, hl⟩ :=
                  ih (p + 1) (b % 256) 7 c n2 rest (by omega) hrest
                have hsk := skeleton_pulse ccount m tt _ inner start n n1 c c2 n2 ev1 ev2
                  (Event.load p :: rest) hw1 hw2
                have hgp := gpioWrites_pulse ccount m tt _ inner start n n1 c c2 n2 ev1 ev2
                  (Event.load p :: rest) hw1 hw2
                have hld := loads_pulse ccount m tt _ inner start n n1 c c2 n2 ev1 ev2
                  (Event.load p :: rest) hw1 hw2
                have hsk2 : skeleton (Event.load p :: rest) = skeleton rest := by
                  simp [skeleton, decisive]
                have hgp2 : gpioWrites (Event.load p :: rest) = gpioWrites rest := by
                  simp [gpioWrites]
                have hld2 : loads (Event.load p :: rest) = p :: loads rest := by
                  simp [loads]
                refine ⟨⟨⟨if pixel.testBit 0 = true then t1 else t0, c, c2⟩ :: qs,
                  ?_, ?_, ?_⟩, ?_, ?_⟩
                · rw [hsk, hsk2, hq1]; rfl
                · exact ⟨hge1, hge2, hq2⟩
                · rw [take_drop_of_getElem? pixels length p b (by omega) hb, msbBits_cons]
                  simp only [List.map_cons, hq3, bitsFrom, List.map_append,
                    List.cons_append, List.nil_append, List.map_nil]
                · rw [hgp, hgp2, hg]
                  have hc : 0 + 1 + 8 * (length - p) = (7 + 1 + 8 * (length - (p + 1))) + 1 := by
                    omega
                  rw [hc, List.replicate_succ, List.flatten_cons]
                  rfl
                · rw [hld, hld2, hl]
                  have hc : length - p = (length - (p + 1)) + 1 := by omega
                  rw [hc, List.range'_succ]
        | succ k =>
          rw [shift_two_pow_succ k hk] at h
          have hne : ¬ (2 ^ k = 0) := by positivity
          rw [if_neg hne] at h
          split at h
          · simp at h
          · rename_i rest hrest
            simp only [Except.ok.injEq] at h
            subst h
            obtain ⟨⟨qs, hq1, hq2, hq3⟩, hg, hl⟩ := ih p pixel k c n2 rest (by omega) hrest
            have hsk := skeleton_pulse ccount m tt _ inner start n n1 c c2 n2 ev1 ev2
              rest hw1 hw2
            have hgp := gpioWrites_pulse ccount m tt _ inner start n n1 c c2 n2 ev1 ev2
              rest hw1 hw2
            have hld := loads_pulse ccount m tt _ inner start n n1 c c2 n2 ev1 ev2
              rest hw1 hw2
            refine ⟨⟨⟨if pixel.testBit (k + 1) = true then t1 else t0, c, c2⟩ :: qs,
              ?_, ?_, ?_⟩, ?_, ?_⟩
            · rw [hsk, hq1]; rfl
            · exact ⟨hge1, hge2, hq2⟩
            · simp only [List.map_cons, hq3, bitsFrom, List.map_append,
                List.cons_append]
            · rw [hgp, hg]
              have hc : k + 1 + 1 + 8 * (length - p) = (k + 1 + 8 * (length - p)) + 1 := by
                omega
              rw [hc, List.replicate_succ, List.flatten_cons]
              rfl
            · rw [hld, hl]

/-- More fuel does not change what a returning run of the bit loop returns. -/
theorem bitLoop_mono (ccount : Nat → Nat) (pixels : List Nat) (length m t0 t1 tt : Nat)
    (inner inner2 : Nat) (hin : inner ≤ inner2) :
    ∀ fuel fuel2 p pixel mask start n tr, fuel ≤ fuel2 →
      bitLoop ccount pixels length m t0 t1 tt inner fuel p pixel mask start n = .ok tr →
      bitLoop ccount pixels length m t0 t1 tt inner2 fuel2 p pixel mask start n = .ok tr := by
  intro fuel
  induction fuel with
  | zero => intro fuel2 p pixel mask start n tr _ h; simp [bitLoop] at h
  | succ fuel ih =>
    intro fuel2 p pixel mask start n tr hle h
    obtain ⟨g, rfl⟩ : ∃ g, fuel2 = g + 1 := ⟨fuel2 - 1, by omega⟩
    simp only [bitLoop] at h ⊢
    split at h
    · simp at h
    · rename_i c n1 ev1 hw1
      simp only [waitLoop_mono ccount _ _ _ inner inner2 n _ hin hw1]
      split at h
      · simp at h
      · rename_i c2 n2 ev2 hw2
        simp only [waitLoop_mono ccount _ _ _ inner inner2 n1 _ hin hw2]
        split at h
        · rename_i hm
          rw [if_pos hm]
          split at h
          · rename_i hend
            rw [if_pos hend]
            exact h
          · rename_i hend
            rw [if_neg hend]
            split at h
            · simp at h
            · rename_i b hb
              split at h
              · simp at h
              · rename_i rest hrest
                simp only [ih g _ _ _ _ _ _ (by omega) hrest]
                exact h
        · rename_i hm
          rw [if_neg hm]
          split at h
          · simp at h
          · rename_i rest hrest
            simp only [ih g _ _ _ _ _ _ (by omega) hrest]
            exact h

/-- With an advancing counter and enough fuel the bit loop does not run out of
fuel: it returns, or it stops at a buffer index below `length` that the memory
behind `pixels` does not have. -/
theorem bitLoop_terminates (ccount : Nat → Nat) (pixels : List Nat)
    (length m t0 t1 tt inner : Nat) (hadv : Advances ccount tt)
    (h0 : t0 ≤ tt) (h1 : t1 ≤ tt) (hin : tt < inner) :
    ∀ fuel p pixel k start n, k ≤ 7 → k + 1 + 8 * (length - p) ≤ fuel →
      (∃ tr, bitLoop ccount pixels length m t0 t1 tt inner fuel p pixel (2 ^ k) start n
        = .ok tr) ∨
      (∃ i, i < length ∧ pixels.length ≤ i ∧
        bitLoop ccount pixels length m t0 t1 tt inner fuel p pixel (2 ^ k) start n
          = .error (.badRead i)) := by
  intro fuel
  induction fuel with
  | zero => intro p pixel k start n _ h; omega
  | succ fuel ih =>
    intro p pixel k start n hk hf
    simp only [bitLoop]
    obtain ⟨⟨c, n1, ev1⟩, hw1⟩ :=
      waitLoop_terminates ccount .period start tt tt hadv (le_refl _) inner n (by omega)
    simp only [hw1]
    have ht : (if pixel &&& 2 ^ k ≠ 0 then t1 else t0) ≤ tt := by
      split <;> assumption
    obtain ⟨⟨c2, n2, ev2⟩, hw2⟩ :=
      waitLoop_terminates ccount .high c _ tt hadv ht inner n1 (by omega)
    simp only [hw2]
    cases k with
    | zero =>
      have hm : (2 ^ 0 >>> 1) % 256 = 0 := by decide
      rw [hm]
      simp only [↓reduceIte]
      by_cases hend : p ≥ length
      · rw [if_pos hend]
        exact Or.inl ⟨_, rfl⟩
      · rw [if_neg hend]
        cases hb : pixels[p]? with
        | none =>
          simp only
          refine Or.inr ⟨p, by omega, ?_, rfl⟩
          exact List.getElem?_eq_none_iff.mp hb
        | some b =>
          simp only
          rcases ih (p + 1) (b % 256) 7 c n2 (by omega) (by omega) with ⟨tr, htr⟩ | ⟨i, hi1, hi2, hi3⟩
          · have h7 : (128 : Nat) = 2 ^ 7 := by decide
            rw [h7, htr]
            exact Or.inl ⟨_, rfl⟩
          · have h7 : (128 : Nat) = 2 ^ 7 := by decide
            rw [h7, hi3]
            exact Or.inr ⟨i, hi1, hi2, rfl⟩
    | succ k =>
      rw [shift_two_pow_succ k hk]
      have hne : ¬ (2 ^ k = 0) := by positivity
      rw [if_neg hne]
      rcases ih p pixel k c n2 (by omega) (by omega) with ⟨tr, htr⟩ | ⟨i, hi1, hi2, hi3⟩
      · rw [htr]
        exact Or.inl ⟨_, rfl⟩
      · rw [hi3]
        exact Or.inr ⟨i, hi1, hi2, rfl⟩

theorem t0h_le_ttot (f : Nat) : t0h f ≤ ttot f :=
  Nat.div_le_div_left (by decide) (by decide)

theorem t1h_le_ttot (f : Nat) : t1h f ≤ ttot f :=
  Nat.div_le_div_left (by decide) (by decide)

/-! ## The whole routine -/

theorem ws2812_write_ok (ccount : Nat → Nat) (f fuel pin : Nat) (pixels : List Nat)
    (length : Nat) (tr : List Event)
    (h : ws2812_write ccount f fuel pin pixels length = .ok tr) :
    ∃ b body, pixels[0]? = some b ∧
      bitLoop ccount pixels length (pin_mask pin) (t0h f) (t1h f) (ttot f) fuel
        fuel 1 (b % 256) (2 ^ 7) 0 0 = .ok body ∧
      tr = Event.load 0 :: Event.intrLock :: (body ++ [Event.intrUnlock]) := by
  simp only [ws2812_write] at h
  split at h
  · simp at h
  · rename_i b hb
    split at h
    · simp at h
    · rename_i body hbody
      simp only [Except.ok.injEq] at h
      exact ⟨b, body, hb, hbody, h.symm⟩

/-- More fuel does not change what a returning run of `ws2812_write` returns. -/
theorem ws2812_write_mono (ccount : Nat → Nat) (f fuel fuel2 pin : Nat) (pixels : List Nat)
    (length : Nat) (tr : List Event) (hle : fuel ≤ fuel2)
    (h : ws2812_write ccount f fuel pin pixels length = .ok tr) :
    ws2812_write ccount f fuel2 pin pixels length = .ok tr := by
  simp only [ws2812_write] at h ⊢
  split at h
  · simp at h
  · rename_i b hb
    split at h
    · simp at h
    · rename_i body hbody
      simp only [bitLoop_mono ccount pixels length _ _ _ _ fuel fuel2 hle
        fuel fuel2 _ _ _ _ _ _ hle hbody]
      exact h

theorem skeleton_frame (body : List Event) :
    skeleton (Event.load 0 :: Event.intrLock :: (body ++ [Event.intrUnlock])) = skeleton body := by
  simp [skeleton, decisive, List.filter_append, List.filter_cons]

theorem gpioWrites_frame (body : List Event) :
    gpioWrites (Event.load 0 :: Event.intrLock :: (body ++ [Event.intrUnlock])) =
      gpioWrites body := by
  simp [gpioWrites, List.filter_append, List.filter_cons]

theorem loads_frame (body : List Event) :
    loads (Event.load 0 :: Event.intrLock :: (body ++ [Event.intrUnlock])) = 0 :: loads body := by
  simp [loads, List.filterMap_append, List.filterMap_cons]

theorem msbBits_take_max (pixels : List Nat) (length b : Nat) (hb : pixels[0]? = some b) :
    msbBits (pixels.take (max 1 length)) =
      bitsFrom (b % 256) 7 ++ msbBits ((pixels.take length).drop 1) := by
  by_cases hl : 1 ≤ length
  · rw [Nat.max_eq_right hl]
    have h := take_drop_of_getElem? pixels length 0 b (by omega) hb
    rw [List.drop_zero] at h
    rw [h, msbBits_cons]
    rfl
  · have hz : length = 0 := by omega
    subst hz
    cases pixels with
    | nil => simp at hb
    | cons x tl =>
      simp only [List.getElem?_cons_zero, Option.some.injEq] at hb
      subst hb
      simp only [Nat.max_eq_left (Nat.zero_le 1), List.take_succ_cons, List.take_zero,
        List.drop_nil, msbBits_cons]

/-- What a returning run of `ws2812_write` leaves in the trace, for every
`length` (a call with `length = 0` behaves as one with `length = 1`). -/
theorem ws2812_write_trace (ccount : Nat → Nat) (f fuel pin : Nat) (pixels : List Nat)
    (length : Nat) (tr : List Event)
    (h : ws2812_write ccount f fuel pin pixels length = .ok tr) :
    (∃ qs, skeleton tr = pulseTrain (pin_mask pin) (ttot f) 0 qs ∧ Timed (ttot f) 0 qs ∧
      qs.map Pulse.target =
        (msbBits (pixels.take (max 1 length))).map (fun b => if b then t1h f else t0h f)) ∧
    gpioWrites tr = (List.replicate (8 * max 1 length)
      [Event.setHigh (pin_mask pin), Event.setLow (pin_mask pin)]).flatten ∧
    loads tr = List.range (max 1 length) := by
  obtain ⟨b, body, hb, hbody, rfl⟩ := ws2812_write_ok _ _ _ _ _ _ _ h
  obtain ⟨⟨qs, hq1, hq2, hq3⟩, hg, hl⟩ :=
    bitLoop_ok _ _ _ _ _ _ _ _ _ _ _ _ _ _ _ (by decide) hbody
  refine ⟨⟨qs, ?_, hq2, ?_⟩, ?_, ?_⟩
  · rw [skeleton_frame, hq1]
  · rw [hq3, msbBits_take_max pixels length b hb]
  · rw [gpioWrites_frame, hg]
    have hc : 7 + 1 + 8 * (length - 1) = 8 * max 1 length := by omega
    rw [hc]
  · rw [loads_frame, hl, List.range_eq_range']
    have hc : max 1 length = (length - 1) + 1 := by omega
    rw [hc, List.range'_succ]

/-- With an advancing counter, fuel `max (ttot + 1) (8 * max 1 length)` is enough:
the run does not stop for lack of fuel, and it returns when the memory behind
`pixels` has the indices below `max 1 length`. -/
theorem ws2812_write_enough_fuel (ccount : Nat → Nat) (f fuel pin : Nat) (pixels : List Nat)
    (length : Nat) (hadv : Advances ccount (ttot f))
    (hfuel : max (ttot f + 1) (8 * max 1 length) ≤ fuel) :
    ws2812_write ccount f fuel pin pixels length ≠ .error .outOfFuel ∧
    (max 1 length ≤ pixels.length →
      ∃ tr, ws2812_write ccount f fuel pin pixels length = .ok tr) := by
  simp only [ws2812_write]
  cases hb : pixels[0]? with
  | none =>
    refine ⟨by simp, ?_⟩
    intro hlen
    have := List.getElem?_eq_none_iff.mp hb
    omega
  | some b =>
    simp only
    have h7 : (128 : Nat) = 2 ^ 7 := by decide
    rw [h7]
    rcases bitLoop_terminates ccount pixels length (pin_mask pin) (t0h f) (t1h f) (ttot f) fuel
      hadv (t0h_le_ttot f) (t1h_le_ttot f) (by omega) fuel 1 (b % 256) 7 0 0 (by decide)
      (by omega) with ⟨tr, htr⟩ | ⟨i, hi1, hi2, hi3⟩
    · rw [htr]
      exact ⟨by simp, fun _ => ⟨_, rfl⟩⟩
    · rw [hi3]
      refine ⟨by simp, ?_⟩
      intro hlen
      omega

theorem msbBits_length (buf : List Nat) : (msbBits buf).length = 8 * buf.length := by
  induction buf with
  | nil => rfl
  | cons b buf ih =>
    rw [msbBits_cons, List.length_append, ih, List.length_cons]
    have h : (bitsFrom (b % 256) 7).length = 8 := rfl
    omega

theorem msbBits_getElem? (buf : List Nat) :
    ∀ i j, j < 8 →
      (msbBits buf)[8 * i + j]? = buf[i]?.map fun b => (b % 256).testBit (7 - j) := by
  induction buf with
  | nil => intro i j _; simp [msbBits]
  | cons b buf ih =>
    intro i j hj
    have hblock : ((List.range 8).map fun j => (b % 256).testBit (7 - j)).length = 8 := by simp
    have hcons : msbBits (b :: buf) =
        ((List.range 8).map fun j => (b % 256).testBit (7 - j)) ++ msbBits buf := by
      simp only [msbBits, List.flatMap_cons]
    rw [hcons]
    cases i with
    | zero =>
      rw [List.getElem?_append_left (by omega)]
      simp [List.getElem?_range hj]
    | succ i =>
      rw [List.getElem?_append_right (by omega), hblock]
      have hidx : 8 * (i + 1) + j - 8 = 8 * i + j := by omega
      rw [hidx, ih i j hj]
      simp

theorem replicate_pair_length {α : Type} (a b : α) (n : Nat) :
    ((List.replicate n [a, b]).flatten).length = 2 * n := by
  induction n with
  | zero => rfl
  | succ n ih =>
    rw [List.replicate_succ, List.flatten_cons, List.length_append, ih]
    simp only [List.length_cons, List.length_nil]
    omega

theorem replicate_pair_getLast? {α : Type} (a b : α) (n : Nat) :
    ((List.replicate (n + 1) [a, b]).flatten).getLast? = some b := by
  rw [List.replicate_succ', List.flatten_append]
  simp

theorem waitLoop_head (ccount : Nat → Nat) (w : Wait) (start limit : Nat) :
    ∀ fuel n c n1 evs, waitLoop ccount w start limit fuel n = some (c, n1, evs) →
      ∃ tl, evs = Event.poll w (getCycleCount ccount n) start limit :: tl ∧
        (sub32 (getCycleCount ccount n) start < limit →
          ∃ tl2, tl = Event.poll w (getCycleCount ccount (n + 1)) start limit :: tl2) := by
  intro fuel n c n1 evs h
  cases fuel with
  | zero => simp [waitLoop] at h
  | succ fuel =>
    simp only [waitLoop] at h
    split at h
    · rename_i hlt
      split at h
      · simp at h
      · rename_i c2 n2 evs2 hrec
        simp only [Option.some.injEq, Prod.mk.injEq] at h
        obtain ⟨rfl, rfl, rfl⟩ := h
        refine ⟨evs2, rfl, fun _ => ?_⟩
        cases fuel with
        | zero => simp [waitLoop] at hrec
        | succ fuel =>
          simp only [waitLoop] at hrec
          split at hrec
          · split at hrec
            · simp at hrec
            · simp only [Option.some.injEq, Prod.mk.injEq] at hrec
              exact ⟨_, hrec.2.2.symm⟩
          · simp only [Option.some.injEq, Prod.mk.injEq] at hrec
            exact ⟨_, hrec.2.2.symm⟩
    · rename_i hge
      simp only [Option.some.injEq, Prod.mk.injEq] at h
      obtain ⟨rfl, rfl, rfl⟩ := h
      exact ⟨[], rfl, fun hlt => absurd hlt hge⟩

theorem bitLoop_head (ccount : Nat → Nat) (pixels : List Nat) (length m t0 t1 tt inner : Nat)
    (fuel p pixel mask start n : Nat) (tr : List Event)
    (h : bitLoop ccount pixels length m t0 t1 tt inner fuel p pixel mask start n = .ok tr) :
    ∃ c n1 ev1 rest, waitLoop ccount .period start tt inner n = some (c, n1, ev1) ∧
      tr = ev1 ++ Event.setHigh m :: rest := by
  cases fuel with
  | zero => simp [bitLoop] at h
  | succ fuel =>
    simp only [bitLoop] at h
    split at h
    · simp at h
    · rename_i c n1 ev1 hw1
      refine ⟨c, n1, ev1, ?_⟩
      split at h
      · simp at h
      · split at h
        · split at h
          · simp only [Except.ok.injEq] at h
            exact ⟨_, hw1, h.symm⟩
          · split at h
            · simp at h
            · split at h
              · simp at h
              · simp only [Except.ok.injEq, List.append_assoc, List.cons_append] at h
                exact ⟨_, hw1, h.symm⟩
        · split at h
          · simp at h
          · simp only [Except.ok.injEq, List.append_assoc, List.cons_append] at h
            exact ⟨_, hw1, h.symm⟩

theorem Timed_mem (tt : Nat) (qs : List Pulse) :
    ∀ prev, Timed tt prev qs → ∀ q ∈ qs, q.target ≤ sub32 q.stop q.start := by
  induction qs with
  | nil => intro prev _ q hq; simp at hq
  | cons a qs ih =>
    intro prev ht q hq
    obtain ⟨_, h2, h3⟩ := ht
    rcases List.mem_cons.mp hq with rfl | hq
    · exact h2
    · exact ih a.start h3 q hq

theorem gpioWrites_skeleton (tr : List Event) : gpioWrites (skeleton tr) = gpioWrites tr := by
  induction tr with
  | nil => rfl
  | cons e tr ih =>
    simp only [gpioWrites, skeleton] at ih ⊢
    cases e <;> simp [List.filter_cons, decisive, ih]; split <;> simp [ih]

theorem gpioWrites_pulseTrain (m tt : Nat) (qs : List Pulse) :
    ∀ prev, (gpioWrites (pulseTrain m tt prev qs)).length = 2 * qs.length := by
  induction qs with
  | nil => intro prev; rfl
  | cons q qs ih =>
    intro prev
    have h : gpioWrites (pulseTrain m tt prev (q :: qs)) =
        Event.setHigh m :: Event.setLow m :: gpioWrites (pulseTrain m tt q.start qs) := by
      simp [gpioWrites, pulseTrain, List.filter_cons]
    rw [h, List.length_cons, List.length_cons, ih, List.length_cons]
    omega

theorem Timed_consecutive (tt : Nat) (qs : List Pulse) :
    ∀ prev, Timed tt prev qs → ∀ k a b, qs[k]? = some a → qs[k + 1]? = some b →
      tt ≤ sub32 b.start a.start := by
  induction qs with
  | nil => intro prev _ k a b ha; simp at ha
  | cons q qs ih =>
    intro prev ht k a b ha hb
    obtain ⟨_, _, h3⟩ := ht
    cases k with
    | zero =>
      simp only [List.getElem?_cons_zero, Option.some.injEq] at ha
      subst ha
      cases qs with
      | nil => simp at hb
      | cons q2 qs2 =>
        simp only [List.getElem?_cons_succ, List.getElem?_cons_zero, Option.some.injEq] at hb
        subst hb
        exact h3.1
    | succ k =>
      simp only [List.getElem?_cons_succ] at ha hb
      exact ih q.start h3 k a b ha hb

/-! ## The claims -/

/-- C1: for every pin and every buffer of `length ≥ 1` bytes, a run of
`ws2812_write` that returns has made exactly `2 * 8 * length` GPIO register
writes, alternately set-high and set-low with the mask of the pin, that is
`8 * length` pulses; pulse number `8 * i + j` waits for the high time `t1h`
when bit `7 - j` of `pixels[i]` is 1 and for `t0h` otherwise, so the targets of
the pulses in order are the bits of the buffer, byte after byte, bit 7 first.
With a counter that advances, every run with enough fuel returns. -/
theorem ws2812_write_emits_msb_first (ccount : Nat → Nat) (f pin : Nat) (pixels : List Nat)
    (length : Nat) (hL : 1 ≤ length) (hbuf : length ≤ pixels.length) :
    (∀ fuel tr, ws2812_write ccount f fuel pin pixels length = .ok tr →
      gpioWrites tr = (List.replicate (8 * length)
        [Event.setHigh (pin_mask pin), Event.setLow (pin_mask pin)]).flatten ∧
      (gpioWrites tr).length = 2 * 8 * length ∧
      ∃ qs, skeleton tr = pulseTrain (pin_mask pin) (ttot f) 0 qs ∧
        qs.length = 8 * length ∧
        qs.map Pulse.target =
          (msbBits (pixels.take length)).map (fun b => if b then t1h f else t0h f) ∧
        ∀ i j, i < length → j < 8 →
          (qs.map Pulse.target)[8 * i + j]? =
            pixels[i]?.map fun b => if (b % 256).testBit (7 - j) then t1h f else t0h f) ∧
    (Advances ccount (ttot f) → ∀ fuel, max (ttot f + 1) (8 * length) ≤ fuel →
      ∃ tr, ws2812_write ccount f fuel pin pixels length = .ok tr) := by
  have hmax : max 1 length = length := Nat.max_eq_right hL
  constructor
  · intro fuel tr h
    obtain ⟨⟨qs, hq1, _, hq3⟩, hg, _⟩ := ws2812_write_trace _ _ _ _ _ _ _ h
    rw [hmax] at hq3 hg
    refine ⟨hg, ?_, qs, hq1, ?_, hq3, ?_⟩
    · rw [hg, replicate_pair_length]; omega
    · have hlen := congrArg List.length hq3
      rw [List.length_map, List.length_map, msbBits_length, List.length_take] at hlen
      rw [hlen, Nat.min_eq_left hbuf]
    · intro i j hi hj
      rw [hq3, List.getElem?_map, msbBits_getElem? _ i j hj, List.getElem?_take_of_lt hi]
      cases pixels[i]? <;> simp
  · intro hadv fuel hfuel
    rw [← hmax] at hfuel
    exact (ws2812_write_enough_fuel ccount f fuel pin pixels length hadv hfuel).2
      (by rw [hmax]; exact hbuf)

/-- Witness of C1, the buffer `[0x80]` at 80 MHz: the run returns, with one
pulse of high time 48 followed by seven of high time 24. -/
theorem ws2812_write_emits_msb_first_witness :
    ∃ tr qs, ws2812_write (fun n => 50 + 60 * n) 80 20 2 [0x80] 1 = .ok tr ∧
      (gpioWrites tr).length = 16 ∧
      skeleton tr = pulseTrain 4 100 0 qs ∧
      qs.map Pulse.target = [48, 24, 24, 24, 24, 24, 24, 24] := by
  obtain ⟨tr, htr⟩ : ∃ tr, ws2812_write (fun n => 50 + 60 * n) 80 20 2 [0x80] 1 = .ok tr :=
    ⟨_, rfl⟩
  obtain ⟨_, hlen, qs, hq1, _, hq3, _⟩ :=
    (ws2812_write_emits_msb_first (fun n => 50 + 60 * n) 80 2 [0x80] 1
      (by decide) (by decide)).1 20 tr htr
  exact ⟨tr, qs, htr, hlen, hq1, hq3⟩

/-- C2: in every run of `ws2812_write` that returns, the trace without the
reads that kept a loop waiting is, bit after bit: the counter read `start` that
ended the period wait, the set-high write, the counter read `stop` that ended
the high-time wait, the set-low write. The read before each set-high write is
the `start_time` of its bit and satisfies `(start - previous start_time) mod
2 ^ 32 ≥ ttot` (the previous `start_time` of the first bit being the initial
0), and the read before each set-low write satisfies
`(stop - start) mod 2 ^ 32 ≥ target`. -/
theorem ws2812_write_waits (ccount : Nat → Nat) (f fuel pin : Nat) (pixels : List Nat)
    (length : Nat) (tr : List Event)
    (h : ws2812_write ccount f fuel pin pixels length = .ok tr) :
    ∃ qs, skeleton tr = pulseTrain (pin_mask pin) (ttot f) 0 qs ∧
      Timed (ttot f) 0 qs ∧
      (gpioWrites tr).length = 2 * qs.length ∧
      (∀ q ∈ qs, q.target ≤ sub32 q.stop q.start ∧ (q.target = t0h f ∨ q.target = t1h f)) ∧
      ∀ k a b, qs[k]? = some a → qs[k + 1]? = some b → ttot f ≤ sub32 b.start a.start := by
  obtain ⟨⟨qs, hq1, hq2, hq3⟩, _, _⟩ := ws2812_write_trace _ _ _ _ _ _ _ h
  refine ⟨qs, hq1, hq2, ?_, ?_, Timed_consecutive (ttot f) qs 0 hq2⟩
  · rw [← gpioWrites_skeleton, hq1, gpioWrites_pulseTrain]
  · intro q hq
    constructor
    · exact Timed_mem (ttot f) qs 0 hq2 q hq
    · have hmem : q.target ∈ qs.map Pulse.target := List.mem_map_of_mem _ hq
      rw [hq3, List.mem_map] at hmem
      obtain ⟨b, _, hb⟩ := hmem
      cases b
      · left; simpa using hb.symm
      · right; simpa using hb.symm

/-- Witness of C2: a run at 80 MHz during which the counter wraps around, from
`2 ^ 32 - 296` upward in steps of 70 ticks. -/
theorem ws2812_write_waits_witness :
    ∃ tr qs, ws2812_write (fun n => 4294967000 + 70 * n) 80 20 2 [0xA5] 1 = .ok tr ∧
      skeleton tr = pulseTrain 4 100 0 qs ∧ Timed 100 0 qs ∧ qs.length = 8 := by
  obtain ⟨tr, htr⟩ :
      ∃ tr, ws2812_write (fun n => 4294967000 + 70 * n) 80 20 2 [0xA5] 1 = .ok tr :=
    ⟨_, rfl⟩
  obtain ⟨qs, hq1, hq2, hq3, _⟩ :=
    ws2812_write_waits (fun n => 4294967000 + 70 * n) 80 20 2 [0xA5] 1 tr htr
  have hg : (gpioWrites tr).length = 16 := by
    simp only [ws2812_write] at htr
    rw [← Except.ok.inj htr]
    rfl
  exact ⟨tr, qs, htr, hq1, hq2, by omega⟩

/-- C3, evaluated at `length = 0`: the call reads `pixels[0]` and sends its eight
bits, sixteen GPIO register writes, instead of none. -/
theorem ws2812_write_length_zero_writes :
    ∃ tr, ws2812_write (fun n => 50 + 60 * n) 80 20 2 [0xFF] 0 = .ok tr ∧
      gpioWrites tr = (List.replicate 8 [Event.setHigh 4, Event.setLow 4]).flatten ∧
      (gpioWrites tr).length = 16 :=
  ⟨_, rfl, rfl, rfl⟩

/-- C4, evaluated at `length = 0`: the call reads index 0, which is not below
`length`; on a buffer without any byte this read is outside the buffer. -/
theorem ws2812_write_length_zero_reads :
    (∃ tr, ws2812_write (fun n => 50 + 60 * n) 80 20 2 [0xFF] 0 = .ok tr ∧ loads tr = [0]) ∧
    ws2812_write (fun n => 50 + 60 * n) 80 20 2 [] 0 = .error (.badRead 0) :=
  ⟨⟨_, rfl, rfl⟩, rfl⟩

/-- C5: in every run of `ws2812_write` that returns, the last GPIO register
write is the write of `pin_mask pin`, that is `1 << pin`, to the output-clear
register: the pin is left commanded low. -/
theorem ws2812_write_ends_low (ccount : Nat → Nat) (f fuel pin : Nat) (pixels : List Nat)
    (length : Nat) (tr : List Event)
    (h : ws2812_write ccount f fuel pin pixels length = .ok tr) :
    (gpioWrites tr).getLast? = some (Event.setLow (pin_mask pin)) ∧
    (pin < 32 → pin_mask pin = 2 ^ pin) := by
  obtain ⟨_, hg, _⟩ := ws2812_write_trace _ _ _ _ _ _ _ h
  constructor
  · have hc : 8 * max 1 length = (8 * max 1 length - 1) + 1 := by omega
    rw [hg, hc, replicate_pair_getLast?]
  · intro hp
    simp only [pin_mask, Nat.one_shiftLeft]
    exact Nat.mod_eq_of_lt (Nat.pow_lt_pow_right (by decide) hp)

/-- Witness of C5: one LED set to dim green, the triplet `32, 0, 0`, on pin 2. -/
theorem ws2812_write_ends_low_witness :
    ∃ tr, ws2812_write (fun n => 1000 + 70 * n) 80 30 2 [32, 0, 0] 3 = .ok tr ∧
      (gpioWrites tr).getLast? = some (Event.setLow 4) := by
  obtain ⟨tr, htr⟩ :
      ∃ tr, ws2812_write (fun n => 1000 + 70 * n) 80 30 2 [32, 0, 0] 3 = .ok tr :=
    ⟨_, rfl⟩
  exact ⟨tr, htr, (ws2812_write_ends_low _ 80 30 2 _ 3 tr htr).1⟩

/-- C6: at 80 and at 160 MHz the thresholds satisfy `t0h < t1h < ttot`, and
`ttot` cycles last at least 1.25 microseconds: `800 * ttot ≥ 1000 * f`. -/
theorem thresholds_ordered (f : Nat) (hf : f = 80 ∨ f = 160) :
    t0h f < t1h f ∧ t1h f < ttot f ∧ 1000 * f ≤ 800 * ttot f := by
  rcases hf with rfl | rfl <;> decide

/-- Witness of C6 at 160 MHz. -/
theorem thresholds_ordered_witness :
    t0h 160 < t1h 160 ∧ t1h 160 < ttot 160 ∧ 1000 * 160 ≤ 800 * ttot 160 :=
  thresholds_ordered 160 (Or.inr rfl)

/-- C7: at 80 and at 160 MHz the integer divisions give exactly `0.30 * f`,
`0.60 * f` and `1.25 * f` cycles: 24, 48, 100 at 80 MHz and 48, 96, 200 at
160 MHz. -/
theorem thresholds_exact (f : Nat) (hf : f = 80 ∨ f = 160) :
    (t0h f : ℚ) = 0.30 * f ∧ (t1h f : ℚ) = 0.60 * f ∧ (ttot f : ℚ) = 1.25 * f ∧
    (f = 80 → t0h f = 24 ∧ t1h f = 48 ∧ ttot f = 100) ∧
    (f = 160 → t0h f = 48 ∧ t1h f = 96 ∧ ttot f = 200) := by
  rcases hf with rfl | rfl
  · have h0 : t0h 80 = 24 := by decide
    have h1 : t1h 80 = 48 := by decide
    have h2 : ttot 80 = 100 := by decide
    rw [h0, h1, h2]
    norm_num
  · have h0 : t0h 160 = 48 := by decide
    have h1 : t1h 160 = 96 := by decide
    have h2 : ttot 160 = 200 := by decide
    rw [h0, h1, h2]
    norm_num

/-- Witness of C7 at 80 MHz. -/
theorem thresholds_exact_witness : t0h 80 = 24 ∧ t1h 80 = 48 ∧ ttot 80 = 100 :=
  (thresholds_exact 80 (Or.inl rfl)).2.2.2.1 rfl

/-- C8: for a 32-bit start value `s` and `e < 2 ^ 32` elapsed ticks, the
counter reads `c = (s + e) mod 2 ^ 32`, and the value `(c - s) mod 2 ^ 32` that
the wait loops compare is `e`; so `(c - s) < threshold` decides `e < threshold`,
also when the counter has wrapped, which is when `c < s` and happens once. -/
theorem elapsed_exact_across_wrap (s e : Nat) (hs : s < 2 ^ 32) (he : e < 2 ^ 32) :
    sub32 ((s + e) % 2 ^ 32) s = e ∧
    (∀ threshold, sub32 ((s + e) % 2 ^ 32) s < threshold ↔ e < threshold) ∧
    ((s + e) % 2 ^ 32 < s → (s + e) % 2 ^ 32 + 2 ^ 32 = s + e) := by
  have h := sub32_add_mod s e he
  refine ⟨h, ?_, ?_⟩
  · intro threshold
    rw [h]
  · intro hlt
    omega

/-- Witness of C8: the counter goes from `2 ^ 32 - 6` to 94 in 100 ticks. -/
theorem elapsed_exact_across_wrap_witness :
    sub32 94 4294967290 = 100 ∧ (sub32 94 4294967290 < 100 ↔ (100 : Nat) < 100) := by
  have h := elapsed_exact_across_wrap 4294967290 100 (by decide) (by decide)
  exact ⟨h.1, h.2.1 100⟩

/-- C9: when the counter advances between consecutive reads by at least 1 and
at most `2 ^ 32 - ttot` ticks, each busy-wait loop ends within `ttot + 1`
counter reads from any state, and `ws2812_write` with fuel
`max (ttot + 1) (8 * max 1 length)` or more never runs out of fuel, for every
`length` from 0 upward and every buffer content: it returns whenever the memory
behind `pixels` has the indices the call reads (those below `max 1 length`). -/
theorem ws2812_write_terminates (ccount : Nat → Nat) (f pin : Nat) (pixels : List Nat)
    (length : Nat) (hadv : Advances ccount (ttot f)) :
    (∀ w start limit n, limit ≤ ttot f →
      ∃ r, waitLoop ccount w start limit (ttot f + 1) n = some r) ∧
    ∀ fuel, max (ttot f + 1) (8 * max 1 length) ≤ fuel →
      ws2812_write ccount f fuel pin pixels length ≠ .error .outOfFuel ∧
      (max 1 length ≤ pixels.length →
        ∃ tr, ws2812_write ccount f fuel pin pixels length = .ok tr) := by
  constructor
  · intro w start limit n hl
    exact waitLoop_terminates ccount w start limit (ttot f) hadv hl (ttot f + 1) n (by omega)
  · intro fuel hfuel
    exact ws2812_write_enough_fuel ccount f fuel pin pixels length hadv hfuel

/-- Witness of C9: a counter that advances by 60 ticks per read, at 80 MHz. -/
theorem ws2812_write_terminates_witness :
    Advances (fun n => 50 + 60 * n) (ttot 80) ∧
    ∃ tr, ws2812_write (fun n => 50 + 60 * n) 80 101 2 [0x80] 1 = .ok tr :=
  ⟨advances_linear 50 60 (ttot 80) (by decide) (by decide) (by decide),
    ((ws2812_write_terminates (fun n => 50 + 60 * n) 80 2 [0x80] 1
      (advances_linear 50 60 (ttot 80) (by decide) (by decide) (by decide))).2 101
        (by decide)).2 (by decide)⟩

/-- C10 as stated fails: at 80 MHz (`ttot = 100`) with a first counter read of
50, which is past 0, the period wait of the first bit is not skipped; a second
counter read precedes the first set-high write. -/
theorem first_wait_not_skipped :
    0 < getCycleCount (fun n => 50 + 60 * n) 0 ∧
    ∃ rest, ws2812_write (fun n => 50 + 60 * n) 80 20 2 [0x80] 1 =
      .ok (Event.load 0 :: Event.intrLock :: Event.poll .period 50 0 100 ::
        Event.poll .period 110 0 100 :: Event.setHigh 4 :: rest) :=
  ⟨by decide, _, rfl⟩

/-- C10, amended: on the first bit, where `start_time` is 0, the period wait
ends on the first counter read `c` when `c ≥ ttot`, so that exactly one counter
read precedes the first set-high write; when `c < ttot` the counter is read
again before it. -/
theorem ws2812_write_first_wait (ccount : Nat → Nat) (f fuel pin : Nat) (pixels : List Nat)
    (length : Nat) (tr : List Event)
    (h : ws2812_write ccount f fuel pin pixels length = .ok tr) :
    (ttot f ≤ getCycleCount ccount 0 →
      ∃ rest, tr = Event.load 0 :: Event.intrLock ::
        Event.poll .period (getCycleCount ccount 0) 0 (ttot f) ::
        Event.setHigh (pin_mask pin) :: rest) ∧
    (getCycleCount ccount 0 < ttot f →
      ∃ rest, tr = Event.load 0 :: Event.intrLock ::
        Event.poll .period (getCycleCount ccount 0) 0 (ttot f) ::
        Event.poll .period (getCycleCount ccount 1) 0 (ttot f) :: rest) := by
  obtain ⟨b, body, _, hbody, rfl⟩ := ws2812_write_ok _ _ _ _ _ _ _ h
  obtain ⟨c, n1, ev1, rest, hw, rfl⟩ := bitLoop_head _ _ _ _ _ _ _ _ _ _ _ _ _ _ _ hbody
  have hc : sub32 (getCycleCount ccount 0) 0 = getCycleCount ccount 0 :=
    sub32_zero_right _ (Nat.mod_lt _ (by decide))
  constructor
  · intro hge
    have hev := (waitLoop_ok _ _ _ _ _ _ _ _ _ hw).2.2.2.2 (by rw [hc]; exact hge)
    rw [hev]
    exact ⟨_, rfl⟩
  · intro hlt
    obtain ⟨tl, htl, hnext⟩ := waitLoop_head _ _ _ _ _ _ _ _ _ hw
    obtain ⟨tl2, htl2⟩ := hnext (by rw [hc]; exact hlt)
    rw [htl, htl2]
    exact ⟨_, rfl⟩

/-- Witness of amended C10: a first counter read of 1000 at 80 MHz. -/
theorem ws2812_write_first_wait_witness :
    ∃ tr rest, ws2812_write (fun n => 1000 + 70 * n) 80 20 2 [0x80] 1 = .ok tr ∧
      tr = Event.load 0 :: Event.intrLock :: Event.poll .period 1000 0 100 ::
        Event.setHigh 4 :: rest := by
  obtain ⟨tr, htr⟩ :
      ∃ tr, ws2812_write (fun n => 1000 + 70 * n) 80 20 2 [0x80] 1 = .ok tr := ⟨_, rfl⟩
  obtain ⟨rest, hrest⟩ :=
    (ws2812_write_first_wait (fun n => 1000 + 70 * n) 80 20 2 [0x80] 1 tr htr).1 (by decide)
  exact ⟨tr, rest, htr, hrest⟩

end WS2812
